import Mathlib

/-!
# Verification of the multi-sortable client table core

Shallow embedding of the sorting core of the Multi-Sortable-Client-Table-UI
repository:

* `lib/sort-utils.ts` — `applyMultiSort` and the criteria comparator;
* `components/sort-panel.tsx` — the criteria-store handlers
  (`handleAddField`, `handleRemoveCriterion`, `handleToggleDirection`,
  `handleDragEnd`);
* `app/page.tsx` — the `localStorage` load/save round trip for the criteria.

JavaScript arrays become `List`, `Array.prototype.sort` (stable per the
ECMAScript specification) becomes `List.mergeSort` under the translated
comparator, and runtime JS values read from a record field become the tagged
union `JSVal` (the TS literal types are erased at runtime, so criterion
`field` and `direction` are plain strings).
-/

namespace ClientTable

/-- A JS runtime value produced by reading a field of a client record inside
the comparator of `applyMultiSort`: a string, a number (timestamps after
`getTime` conversion), or `undefined` for a field the record does not carry. -/
inductive JSVal where
  | str (s : String)
  | num (n : Int)
  | undefined
deriving DecidableEq

/-- A client record from `lib/data.ts`. `createdAt`/`updatedAt` are modelled
as `Option Int` millisecond instants (the result of `Date.getTime`), with
`none` for an absent/undefined date (the TS type makes them mandatory but the
comparator in `lib/sort-utils.ts` explicitly guards against falsy dates). -/
structure Client where
  id : String
  name : String
  email : String
  createdAt : Option Int
  updatedAt : Option Int
  status : String
deriving DecidableEq

/-- A sort criterion from `lib/sort-utils.ts`. At runtime the TS literal
types `ClientFieldId` and `"asc" | "desc"` are erased (and values restored
from `localStorage` bypass them entirely), so `field` and `direction` are
plain strings. -/
structure SortCriterion where
  id : String
  field : String
  direction : String
deriving DecidableEq

/-- The descriptor table `clientFields` from `lib/data.ts`:
`(id, label, type)` triples. -/
def clientFields : List (String × String × String) :=
  [("name", "Name", "string"),
   ("email", "Email", "string"),
   ("createdAt", "Created At", "date"),
   ("updatedAt", "Updated At", "date"),
   ("status", "Status", "string")]

/-- The value `a[field]` as read by the comparator in `applyMultiSort`:
date fields go through `a[field] ? (a[field] as Date).getTime() : 0`
(the `0` branch of that conditional is applied later, in `compareVals`'
numeric case, via `Option.getD`), the remaining `Client` fields are plain
strings, and any other field name reads as `undefined`. -/
def getVal (c : Client) (field : String) : JSVal :=
  if field = "createdAt" then .num (c.createdAt.getD 0)
  else if field = "updatedAt" then .num (c.updatedAt.getD 0)
  else if field = "id" then .str c.id
  else if field = "name" then .str c.name
  else if field = "email" then .str c.email
  else if field = "status" then .str c.status
  else .undefined

/-- Model of `String.prototype.localeCompare`: the host locale induces a
total order returning a negative, zero, or positive number; we model it by
the codepoint order on strings (a linear order with the same signature). -/
def localeCompare (a b : String) : Int :=
  if a < b then -1 else if b < a then 1 else 0

/-- JS abstract `<` restricted to the values `getVal` can produce: any
comparison involving `undefined` is NaN-valued and yields `false`; a mixed
string/number comparison coerces the string with `ToNumber` (modelled by
integer parsing; such mixes never arise between two clients on one field). -/
def jsLt : JSVal → JSVal → Bool
  | .num a, .num b => a < b
  | .str a, .str b => a < b
  | .str a, .num b => match a.toInt? with | some m => m < b | none => false
  | .num a, .str b => match b.toInt? with | some m => a < m | none => false
  | _, _ => false

/-- The per-criterion comparison in `applyMultiSort`: `localeCompare` when
both values are strings, numeric subtraction when both are numbers, and
otherwise the `<`/`>` fallback (`if (valA < valB) -1 else if (valA > valB) 1
else 0`). -/
def compareVals (va vb : JSVal) : Int :=
  match va, vb with
  | .str sa, .str sb => localeCompare sa sb
  | .num na, .num nb => na - nb
  | va, vb => if jsLt va vb then -1 else if jsLt vb va then 1 else 0

/-- The comparator closure passed to `Array.prototype.sort` in
`applyMultiSort`: walk the criteria in priority order, return the first
non-zero comparison with the direction applied (`direction === "asc" ?
comparison : -comparison`), and `0` when every criterion ties. -/
def compareClients (criteria : List SortCriterion) (a b : Client) : Int :=
  match criteria with
  | [] => 0
  | crit :: rest =>
    let comparison := compareVals (getVal a crit.field) (getVal b crit.field)
    if comparison ≠ 0 then
      if crit.direction = "asc" then comparison else -comparison
    else compareClients rest a b

/-- Model of `applyMultiSort` from `lib/sort-utils.ts`: with empty criteria, a shallow
copy of the input in the original order; otherwise a copy sorted by the
criteria comparator with `Array.prototype.sort`, which the ECMAScript
specification requires to be a stable sort — modelled by `List.mergeSort`
under the predicate "comparator result ≤ 0". -/
def applyMultiSort (clients : List Client) (criteria : List SortCriterion) :
    List Client :=
  if criteria.length = 0 then clients
  else clients.mergeSort fun a b => decide (compareClients criteria a b ≤ 0)

/-- Model of `handleAddField` from `components/sort-panel.tsx`. The guard is
`selectedField && !sortCriteria.some((c) => c.field === selectedField)`;
on success a criterion with id `` `sort-${Date.now()}-${selectedField}` ``,
the selected field, and direction `"asc"` is appended. `now` stands for the
`Date.now()` call. -/
def handleAddField (selectedField : String) (now : Nat)
    (sortCriteria : List SortCriterion) : List SortCriterion :=
  if selectedField ≠ "" ∧ ¬ sortCriteria.any (fun c => c.field = selectedField) then
    sortCriteria ++
      [⟨"sort-" ++ toString now ++ "-" ++ selectedField, selectedField, "asc"⟩]
  else sortCriteria

/-- Model of `handleRemoveCriterion` from `components/sort-panel.tsx`: keep the
criteria whose id differs (`filter((c) => c.id !== id)`). -/
def handleRemoveCriterion (id : String) (sortCriteria : List SortCriterion) :
    List SortCriterion :=
  sortCriteria.filter fun c => c.id ≠ id

/-- Model of `handleToggleDirection` from `components/sort-panel.tsx`: map over the
criteria, flipping `asc`/`desc` on the one whose id matches. -/
def handleToggleDirection (id : String) (sortCriteria : List SortCriterion) :
    List SortCriterion :=
  sortCriteria.map fun c =>
    if c.id = id then
      ⟨c.id, c.field, if c.direction = "asc" then "desc" else "asc"⟩
    else c

/-- Model of `handleDragEnd` from `components/sort-panel.tsx`. `activeId` is the
dragged criterion's id and `overId` the id of the item it was dropped over
(`none` models `over` being `null`, in which case `over?.id` is `undefined`:
the first guard passes but `findIndex` on `undefined` yields `-1`, a no-op).
A successful drop splices the dragged item out of its old index and inserts
it at the index the target occupied in the original array. -/
def handleDragEnd (activeId : String) (overId : Option String)
    (sortCriteria : List SortCriterion) : List SortCriterion :=
  if some activeId = overId then sortCriteria
  else
    match sortCriteria.findIdx? (fun c => c.id = activeId),
          overId.bind (fun oid => sortCriteria.findIdx? (fun c => c.id = oid)) with
    | some oldIndex, some newIndex =>
      match sortCriteria[oldIndex]? with
      | some movedItem =>
        (sortCriteria.eraseIdx oldIndex).insertIdx newIndex movedItem
      | none => sortCriteria
    | _, _ => sortCriteria

/-- The persisted `localStorage` value of `app/page.tsx` as seen after
`JSON.parse`: `malformed` = the parse threw (caught by the `try`/`catch`),
`nonArray` = parsed but `Array.isArray` fails, `arr items` = an array of
`{id, field, direction}` objects, where an absent or otherwise falsy member
reads as the falsy string `""`. -/
inductive PersistedValue where
  | malformed
  | nonArray
  | arr (items : List SortCriterion)
deriving DecidableEq

/-- The load effect of `app/page.tsx` (`Home`'s mount `useEffect`): `none`
models no saved value. A parse failure or a failed validation clears the
stored value and leaves the initial empty criteria state; the validation is
`Array.isArray(parsed) && parsed.every((c) => c.id && c.field && c.direction)`,
i.e. truthiness of the three members of every element. -/
def loadCriteria : Option PersistedValue → List SortCriterion
  | none => []
  | some .malformed => []
  | some .nonArray => []
  | some (.arr items) =>
    if items.all (fun c => c.id ≠ "" ∧ c.field ≠ "" ∧ c.direction ≠ "") then items
    else []

/-- The save effect of `app/page.tsx` (`Home`'s save `useEffect`):
`JSON.stringify(sortCriteria)` stores exactly the array of
`{id, field, direction}` triples, which `JSON.parse` reads back as the same
array of objects. -/
def serializeCriteria (sortCriteria : List SortCriterion) : PersistedValue :=
  .arr sortCriteria

/-- A user-level operation on the criteria state, as wired in
`components/sort-panel.tsx`. -/
inductive Op where
  | add (field : String) (now : Nat)
  | remove (id : String)
  | toggle (id : String)
  | drag (activeId : String) (overId : Option String)

/-- One state transition of the criteria store. -/
def applyOp (s : List SortCriterion) : Op → List SortCriterion
  | .add f now => handleAddField f now s
  | .remove i => handleRemoveCriterion i s
  | .toggle i => handleToggleDirection i s
  | .drag a o => handleDragEnd a o s

/-- The criteria state reached from the initial empty state
(`useState<SortCriterion[]>([])`) by a sequence of user operations. -/
def runOps (ops : List Op) : List SortCriterion :=
  ops.foldl applyOp []

/-- The timestamp stored under a date-typed field identifier, as an
`Option Int` instant (`none` = absent date). -/
def tsField (f : String) (c : Client) : Option Int :=
  if f = "createdAt" then c.createdAt else c.updatedAt

/-! ## Comparator algebra

The criteria comparator is a total preorder comparison on clients: these
lemmas establish antisymmetry of its sign, transitivity, and totality, which
is what `List.mergeSort` needs to produce a sorted, stable permutation. -/

/-- Every field name reads homogeneously across clients: always a number
(the two date fields), always a string (the four string-typed fields of
`Client`), or always `undefined` (any other name). -/
theorem getVal_shape (f : String) :
    (∃ g : Client → Int, ∀ c, getVal c f = .num (g c)) ∨
    (∃ g : Client → String, ∀ c, getVal c f = .str (g c)) ∨
    (∀ c, getVal c f = .undefined) := by
  by_cases h1 : f = "createdAt"
  · exact .inl ⟨fun c => c.createdAt.getD 0, fun c => by simp [getVal, h1]⟩
  by_cases h2 : f = "updatedAt"
  · exact .inl ⟨fun c => c.updatedAt.getD 0, fun c => by simp [getVal, h1, h2]⟩
  by_cases h3 : f = "id"
  · exact .inr (.inl ⟨fun c => c.id, fun c => by simp [getVal, h1, h2, h3]⟩)
  by_cases h4 : f = "name"
  · exact .inr (.inl ⟨fun c => c.name, fun c => by simp [getVal, h1, h2, h3, h4]⟩)
  by_cases h5 : f = "email"
  · exact .inr (.inl ⟨fun c => c.email, fun c => by simp [getVal, h1, h2, h3, h4, h5]⟩)
  by_cases h6 : f = "status"
  · exact .inr (.inl ⟨fun c => c.status, fun c => by simp [getVal, h1, h2, h3, h4, h5, h6]⟩)
  · exact .inr (.inr fun c => by simp [getVal, h1, h2, h3, h4, h5, h6])

/-- Swapping the arguments of the locale comparison negates it. -/
theorem localeCompare_swap (a b : String) : localeCompare b a = -localeCompare a b := by
  unfold localeCompare
  rcases lt_trichotomy a b with h | h | h
  · rw [if_neg (asymm h), if_pos h, if_pos h]
    norm_num
  · subst h
    rw [if_neg (lt_irrefl a), if_neg (lt_irrefl a)]
    norm_num
  · rw [if_pos h, if_neg (asymm h), if_pos h]

/-- The locale comparison is zero exactly on equal strings. -/
theorem localeCompare_eq_zero_iff (a b : String) : localeCompare a b = 0 ↔ a = b := by
  unfold localeCompare
  rcases lt_trichotomy a b with h | h | h
  · rw [if_pos h]
    simp [h.ne]
  · subst h
    simp [lt_irrefl]
  · rw [if_neg (asymm h), if_pos h]
    simp [h.ne.symm]

/-- The locale comparison is negative exactly on strictly increasing pairs. -/
theorem localeCompare_neg_iff (a b : String) : localeCompare a b < 0 ↔ a < b := by
  unfold localeCompare
  rcases lt_trichotomy a b with h | h | h
  · rw [if_pos h]
    simp [h]
  · subst h
    simp [lt_irrefl]
  · rw [if_neg (asymm h), if_pos h]
    simp [asymm h]

/-- The JS `<` fallback never holds in both directions. -/
theorem jsLt_mutual (va vb : JSVal) : ¬(jsLt va vb = true ∧ jsLt vb va = true) := by
  rintro ⟨h1, h2⟩
  cases va with
  | str a =>
    cases vb with
    | str b =>
      simp only [jsLt, decide_eq_true_eq] at h1 h2
      exact absurd (h1.trans h2) (lt_irrefl a)
    | num b =>
      cases h : a.toInt? with
      | none => simp [jsLt, h] at h1
      | some m =>
        simp only [jsLt, h, decide_eq_true_eq] at h1 h2
        omega
    | undefined => simp [jsLt] at h2
  | num a =>
    cases vb with
    | str b =>
      cases h : b.toInt? with
      | none => simp [jsLt, h] at h1
      | some m =>
        simp only [jsLt, h, decide_eq_true_eq] at h1 h2
        omega
    | num b =>
      simp only [jsLt, decide_eq_true_eq] at h1 h2
      omega
    | undefined => simp [jsLt] at h2
  | undefined => simp [jsLt] at h1

/-- Swapping the two branches of the `<`/`>` fallback negates its result, as
long as the two strict comparisons are mutually exclusive. -/
theorem fallback_swap (x y : Bool) (h : ¬(x = true ∧ y = true)) :
    (if y = true then (-1 : Int) else if x = true then 1 else 0) =
      -(if x = true then (-1 : Int) else if y = true then 1 else 0) := by
  cases x <;> cases y <;> simp_all

/-- Swapping the arguments of the per-criterion comparison negates it. -/
theorem compareVals_swap (va vb : JSVal) : compareVals vb va = -compareVals va vb := by
  have hm := jsLt_mutual va vb
  cases va with
  | str a =>
    cases vb with
    | str b => exact localeCompare_swap a b
    | num b => exact fallback_swap _ _ hm
    | undefined => exact fallback_swap _ _ hm
  | num a =>
    cases vb with
    | str b => exact fallback_swap _ _ hm
    | num b =>
      simp only [compareVals]
      omega
    | undefined => exact fallback_swap _ _ hm
  | undefined =>
    cases vb with
    | str b => exact fallback_swap _ _ hm
    | num b => exact fallback_swap _ _ hm
    | undefined => exact fallback_swap _ _ hm

/-- The per-criterion comparison is reflexive-zero. -/
theorem compareVals_self (v : JSVal) : compareVals v v = 0 := by
  cases v with
  | str s => exact (localeCompare_eq_zero_iff s s).mpr rfl
  | num n =>
    simp only [compareVals]
    omega
  | undefined => simp [compareVals, jsLt]

/-- On the homogeneous values a fixed field produces, a zero comparison means
the two values are equal. -/
theorem compareVals_getVal_eq (f : String) (a b : Client)
    (h : compareVals (getVal a f) (getVal b f) = 0) : getVal a f = getVal b f := by
  rcases getVal_shape f with ⟨g, hg⟩ | ⟨g, hg⟩ | hg
  · rw [hg a, hg b] at h ⊢
    simp only [compareVals] at h
    simp only [JSVal.num.injEq]
    omega
  · rw [hg a, hg b] at h ⊢
    simp only [compareVals] at h
    simp only [JSVal.str.injEq]
    exact (localeCompare_eq_zero_iff (g a) (g b)).mp h
  · rw [hg a, hg b]

/-- On the homogeneous values a fixed field produces, strictly negative
comparisons compose transitively. -/
theorem compareVals_getVal_lt_trans (f : String) (a b c : Client)
    (h1 : compareVals (getVal a f) (getVal b f) < 0)
    (h2 : compareVals (getVal b f) (getVal c f) < 0) :
    compareVals (getVal a f) (getVal c f) < 0 := by
  rcases getVal_shape f with ⟨g, hg⟩ | ⟨g, hg⟩ | hg
  · rw [hg a, hg b] at h1
    rw [hg b, hg c] at h2
    rw [hg a, hg c]
    simp only [compareVals] at h1 h2 ⊢
    omega
  · rw [hg a, hg b] at h1
    rw [hg b, hg c] at h2
    rw [hg a, hg c]
    simp only [compareVals] at h1 h2 ⊢
    rw [localeCompare_neg_iff] at h1 h2 ⊢
    exact h1.trans h2
  · rw [hg a, hg b] at h1
    simp [compareVals, jsLt] at h1

/-- Swapping the two clients negates the full criteria comparator. -/
theorem compareClients_swap (C : List SortCriterion) (a b : Client) :
    compareClients C b a = -compareClients C a b := by
  induction C with
  | nil => simp [compareClients]
  | cons crit rest ih =>
    simp only [compareClients]
    rw [compareVals_swap (getVal a crit.field) (getVal b crit.field)]
    by_cases h : compareVals (getVal a crit.field) (getVal b crit.field) = 0
    · simp [h, ih]
    · rw [if_pos (by omega : -compareVals (getVal a crit.field) (getVal b crit.field) ≠ 0),
        if_pos h]
      by_cases hd : crit.direction = "asc"
      · simp [hd]
      · simp [hd]

/-- The criteria comparator is transitive on its nonpositive cone. -/
theorem compareClients_le_trans (C : List SortCriterion) (a b c : Client) :
    compareClients C a b ≤ 0 → compareClients C b c ≤ 0 →
    compareClients C a c ≤ 0 := by
  induction C with
  | nil =>
    intro _ _
    simp [compareClients]
  | cons crit rest ih =>
    intro h1 h2
    simp only [compareClients] at h1 h2 ⊢
    by_cases hx : compareVals (getVal a crit.field) (getVal b crit.field) = 0
    · have hab := compareVals_getVal_eq crit.field a b hx
      rw [if_neg (by simpa using hx)] at h1
      have hz : compareVals (getVal a crit.field) (getVal c crit.field) =
          compareVals (getVal b crit.field) (getVal c crit.field) := by rw [hab]
      by_cases hy : compareVals (getVal b crit.field) (getVal c crit.field) = 0
      · rw [if_neg (by simpa using hy)] at h2
        rw [if_neg (by simp [hz, hy])]
        exact ih h1 h2
      · rw [if_pos hy] at h2
        rw [if_pos (by simpa [hz] using hy), hz]
        exact h2
    · rw [if_pos hx] at h1
      by_cases hy : compareVals (getVal b crit.field) (getVal c crit.field) = 0
      · have hbc := compareVals_getVal_eq crit.field b c hy
        have hz : compareVals (getVal a crit.field) (getVal c crit.field) =
            compareVals (getVal a crit.field) (getVal b crit.field) := by rw [hbc]
        rw [if_pos (by simpa [hz] using hx), hz]
        exact h1
      · rw [if_pos hy] at h2
        by_cases hd : crit.direction = "asc"
        · rw [if_pos hd] at h1 h2
          have hz : compareVals (getVal a crit.field) (getVal c crit.field) < 0 :=
            compareVals_getVal_lt_trans crit.field a b c (by omega) (by omega)
          rw [if_pos (by omega), if_pos hd]
          omega
        · rw [if_neg hd] at h1 h2
          have hba : compareVals (getVal b crit.field) (getVal a crit.field) < 0 := by
            rw [compareVals_swap]
            omega
          have hcb : compareVals (getVal c crit.field) (getVal b crit.field) < 0 := by
            rw [compareVals_swap]
            omega
          have hca : compareVals (getVal c crit.field) (getVal a crit.field) < 0 :=
            compareVals_getVal_lt_trans crit.field c b a hcb hba
          have hz : compareVals (getVal a crit.field) (getVal c crit.field) > 0 := by
            have := compareVals_swap (getVal a crit.field) (getVal c crit.field)
            omega
          rw [if_pos (by omega), if_neg hd]
          omega

/-- The criteria comparator is total on its nonpositive cone. -/
theorem compareClients_total (C : List SortCriterion) (a b : Client) :
    compareClients C a b ≤ 0 ∨ compareClients C b a ≤ 0 := by
  rcases le_or_lt (compareClients C a b) 0 with h | h
  · exact .inl h
  · right
    rw [compareClients_swap]
    omega

/-- With non-empty criteria, `applyMultiSort` is the stable sort under the
criteria comparator. -/
theorem applyMultiSort_eq_mergeSort (R : List Client) (C : List SortCriterion)
    (hC : C ≠ []) :
    applyMultiSort R C =
      R.mergeSort fun a b => decide (compareClients C a b ≤ 0) := by
  unfold applyMultiSort
  rw [if_neg (by simpa [List.length_eq_zero] using hC)]

/-- The Boolean form of comparator transitivity used by `List.mergeSort`. -/
theorem leClients_trans (C : List SortCriterion) (a b c : Client)
    (h1 : decide (compareClients C a b ≤ 0) = true)
    (h2 : decide (compareClients C b c ≤ 0) = true) :
    decide (compareClients C a c ≤ 0) = true := by
  simp only [decide_eq_true_eq] at h1 h2 ⊢
  exact compareClients_le_trans C a b c h1 h2

/-- The Boolean form of comparator totality used by `List.mergeSort`. -/
theorem leClients_total (C : List SortCriterion) (a b : Client) :
    (decide (compareClients C a b ≤ 0) || decide (compareClients C b a ≤ 0)) = true := by
  simpa [Bool.or_eq_true, decide_eq_true_eq] using compareClients_total C a b

/-- Inserting at a position inside the list is, up to permutation, consing. -/
theorem perm_insertIdx {α : Type} (a : α) :
    ∀ (n : Nat) (l : List α), n ≤ l.length → (l.insertIdx n a).Perm (a :: l)
  | 0, l, _ => by simp
  | n + 1, [], h => by simp at h
  | n + 1, x :: xs, h => by
    rw [List.insertIdx_succ_cons]
    exact ((perm_insertIdx a n xs (by simpa using h)).cons x).trans
      (List.Perm.swap a x xs)

/-- Removing an element at a valid index and consing it back is a
permutation of the original list. -/
theorem cons_eraseIdx_perm {α : Type} (l : List α) (i : Nat) (m : α)
    (hm : l[i]? = some m) : (m :: l.eraseIdx i).Perm l := by
  induction l generalizing i with
  | nil => simp at hm
  | cons x xs ih =>
    cases i with
    | zero =>
      simp only [List.getElem?_cons_zero, Option.some.injEq] at hm
      subst hm
      simp
    | succ i =>
      simp only [List.getElem?_cons_succ] at hm
      rw [List.eraseIdx_cons_succ]
      exact (List.Perm.swap x m (xs.eraseIdx i)).trans ((ih i hm).cons x)

/-- The drag handler permutes the criteria: it never adds, removes, or
modifies one. -/
theorem handleDragEnd_perm (activeId : String) (overId : Option String)
    (s : List SortCriterion) : (handleDragEnd activeId overId s).Perm s := by
  unfold handleDragEnd
  split
  · exact List.Perm.refl s
  split
  · rename_i oldIndex newIndex hOld hNew
    split
    · rename_i movedItem hget
      obtain ⟨oid, hoid, hfo⟩ := Option.bind_eq_some.mp hNew
      obtain ⟨hnewlt, -, -⟩ := List.findIdx?_eq_some_iff_getElem.mp hfo
      have holdlt : oldIndex < s.length := (List.getElem?_eq_some_iff.mp hget).1
      have hle : newIndex ≤ (s.eraseIdx oldIndex).length := by
        rw [List.length_eraseIdx_of_lt holdlt]
        omega
      exact (perm_insertIdx movedItem newIndex (s.eraseIdx oldIndex) hle).trans
        (cons_eraseIdx_perm s oldIndex movedItem hget)
    · exact List.Perm.refl s
  · exact List.Perm.refl s

/-- A pairwise-everywhere-true relation holds on any list. -/
theorem pairwise_of_total {α : Type} (r : α → α → Prop) (h : ∀ a b, r a b) :
    ∀ (l : List α), l.Pairwise r
  | [] => List.Pairwise.nil
  | x :: xs => List.Pairwise.cons (fun y _ => h x y) (pairwise_of_total r h xs)

/-- C1: for every record list and non-empty criteria list `C`,
`applyMultiSort` returns a permutation of the records (every record exactly
once) ordered by the criteria comparator — which compares by criterion 0
first, then criterion 1 on ties, and so on, each criterion's direction
applied (`compareClients`) — and the sort is stable: records `a`, `b`
occurring in this order in a record list that compare equal under all
criteria of `C` occur in the same relative order in its output. The
permutation and ordering conclusions hold for the arbitrary list `R1`; the
stability conclusion for the arbitrary list `R2` containing the tied pair. -/
theorem applyMultiSort_perm_sorted_stable
    (R1 R2 : List Client) (C : List SortCriterion) (a b : Client)
    (hC : C ≠ [])
    (hab : [a, b].Sublist R2)
    (h0 : compareClients C a b = 0) :
    (applyMultiSort R1 C).Perm R1 ∧
    (applyMultiSort R1 C).Pairwise (fun x y => compareClients C x y ≤ 0) ∧
    [a, b].Sublist (applyMultiSort R2 C) := by
  rw [applyMultiSort_eq_mergeSort R1 C hC, applyMultiSort_eq_mergeSort R2 C hC]
  refine ⟨List.mergeSort_perm R1 _, ?_, ?_⟩
  · have hs := @List.sorted_mergeSort Client
      (fun x y => decide (compareClients C x y ≤ 0))
      (leClients_trans C) (leClients_total C) R1
    exact hs.imp (by intro x y h; simpa using h)
  · exact List.pair_sublist_mergeSort (leClients_trans C) (leClients_total C)
      (by simpa using le_of_eq h0) hab

/-- Witness for C1: three clients with a tie on `name` between the first
two, sorted by the single criterion `name` ascending. -/
theorem applyMultiSort_perm_sorted_stable_witness :
    (applyMultiSort
        [⟨"1", "Amy", "x", none, none, "active"⟩,
         ⟨"2", "Amy", "y", none, none, "active"⟩,
         ⟨"3", "Bob", "z", none, none, "active"⟩]
        [⟨"c1", "name", "asc"⟩]).Perm
      [⟨"1", "Amy", "x", none, none, "active"⟩,
       ⟨"2", "Amy", "y", none, none, "active"⟩,
       ⟨"3", "Bob", "z", none, none, "active"⟩] ∧
    (applyMultiSort
        [⟨"1", "Amy", "x", none, none, "active"⟩,
         ⟨"2", "Amy", "y", none, none, "active"⟩,
         ⟨"3", "Bob", "z", none, none, "active"⟩]
        [⟨"c1", "name", "asc"⟩]).Pairwise
      (fun x y => compareClients [⟨"c1", "name", "asc"⟩] x y ≤ 0) ∧
    [(⟨"1", "Amy", "x", none, none, "active"⟩ : Client),
     ⟨"2", "Amy", "y", none, none, "active"⟩].Sublist
      (applyMultiSort
        [⟨"1", "Amy", "x", none, none, "active"⟩,
         ⟨"2", "Amy", "y", none, none, "active"⟩,
         ⟨"3", "Bob", "z", none, none, "active"⟩]
        [⟨"c1", "name", "asc"⟩]) :=
  applyMultiSort_perm_sorted_stable
    [⟨"1", "Amy", "x", none, none, "active"⟩,
     ⟨"2", "Amy", "y", none, none, "active"⟩,
     ⟨"3", "Bob", "z", none, none, "active"⟩]
    [⟨"1", "Amy", "x", none, none, "active"⟩,
     ⟨"2", "Amy", "y", none, none, "active"⟩,
     ⟨"3", "Bob", "z", none, none, "active"⟩]
    [⟨"c1", "name", "asc"⟩]
    ⟨"1", "Amy", "x", none, none, "active"⟩
    ⟨"2", "Amy", "y", none, none, "active"⟩
    (by decide) (by decide)
    (by simp [compareClients, compareVals, getVal, localeCompare])

/-- C6: with empty criteria, `applyMultiSort` returns the records in their
original order, structurally equal to the input, and (by value semantics)
the input list is left unmodified. The code realizes the claim's
distinct-object requirement with the `[...clients]` array spread, a memory
identity fact outside a value-level embedding. -/
theorem applyMultiSort_empty_criteria (R : List Client) :
    applyMultiSort R [] = R := rfl

/-- C2 counterexample: a criterion whose field identifier (`"bogus"`) has no
descriptor does not make `applyMultiSort` fail: the call returns normally —
the records in their original order — so no `UnknownField` error is
surfaced to the caller (the code has no error signalling at all). -/
theorem applyMultiSort_unknown_field_returns :
    applyMultiSort
      [⟨"1", "Amy", "x", none, none, "active"⟩,
       ⟨"2", "Bob", "y", none, none, "active"⟩]
      [⟨"c1", "bogus", "asc"⟩] =
      [⟨"1", "Amy", "x", none, none, "active"⟩,
       ⟨"2", "Bob", "y", none, none, "active"⟩] := by
  simp [applyMultiSort, List.mergeSort, List.splitInTwo, List.merge,
    compareClients, compareVals, getVal, jsLt]

/-- C2 amended: `applyMultiSort` signals no configuration errors at all; for
every record list and every criteria list — including criteria whose field
identifier has no descriptor — the call completes and returns a permutation
of the records. -/
theorem applyMultiSort_never_fails (R : List Client) (C : List SortCriterion) :
    (applyMultiSort R C).Perm R := by
  by_cases hC : C = []
  · subst hC
    exact List.Perm.refl R
  · rw [applyMultiSort_eq_mergeSort R C hC]
    exact List.mergeSort_perm R _

/-- C10: `applyMultiSort` is total over arbitrary criteria field
identifiers: the call always returns a permutation of the records; a
criterion whose field is carried by no record reads `undefined` on both
sides, yields a zero comparison for every pair of records, and inserting
such a criterion anywhere in the criteria list leaves the output
unchanged. -/
theorem applyMultiSort_total_unknown_field
    (R : List Client) (Cpre Cpost : List SortCriterion)
    (f i d : String) (a b : Client)
    (hf : f ≠ "createdAt" ∧ f ≠ "updatedAt" ∧ f ≠ "id" ∧ f ≠ "name" ∧
      f ≠ "email" ∧ f ≠ "status") :
    (applyMultiSort R (Cpre ++ ⟨i, f, d⟩ :: Cpost)).Perm R ∧
    compareVals (getVal a f) (getVal b f) = 0 ∧
    applyMultiSort R (Cpre ++ ⟨i, f, d⟩ :: Cpost) = applyMultiSort R (Cpre ++ Cpost) := by
  obtain ⟨h1, h2, h3, h4, h5, h6⟩ := hf
  have hundef : ∀ c : Client, getVal c f = .undefined := fun c => by
    simp [getVal, h1, h2, h3, h4, h5, h6]
  have hzero : ∀ x y : Client, compareVals (getVal x f) (getVal y f) = 0 := by
    intro x y
    rw [hundef x, hundef y]
    simp [compareVals, jsLt]
  have hcomp : ∀ x y : Client,
      compareClients (Cpre ++ ⟨i, f, d⟩ :: Cpost) x y =
        compareClients (Cpre ++ Cpost) x y := by
    intro x y
    induction Cpre with
    | nil => simp [compareClients, hzero x y]
    | cons c rest ihp =>
      simp only [List.cons_append, compareClients, List.append_eq]
      rw [ihp]
  have hne : Cpre ++ ⟨i, f, d⟩ :: Cpost ≠ [] := by simp
  refine ⟨?_, hzero a b, ?_⟩
  · rw [applyMultiSort_eq_mergeSort R _ hne]
    exact List.mergeSort_perm R _
  · by_cases hCC : Cpre ++ Cpost = []
    · rw [applyMultiSort_eq_mergeSort R _ hne, hCC]
      have htrue : ∀ x y : Client,
          decide (compareClients (Cpre ++ ⟨i, f, d⟩ :: Cpost) x y ≤ 0) = true := by
        intro x y
        simp [hcomp x y, hCC, compareClients]
      have : applyMultiSort R [] = R := rfl
      rw [this]
      exact List.mergeSort_of_sorted
        (pairwise_of_total _ (fun x y => htrue x y) R)
    · rw [applyMultiSort_eq_mergeSort R _ hne, applyMultiSort_eq_mergeSort R _ hCC]
      have hfun : (fun x y : Client =>
            decide (compareClients (Cpre ++ ⟨i, f, d⟩ :: Cpost) x y ≤ 0)) =
          fun x y : Client => decide (compareClients (Cpre ++ Cpost) x y ≤ 0) := by
        funext x y
        rw [hcomp x y]
      rw [hfun]

/-- Witness for C10: the unknown field `"bogus"` between two records, as the
only criterion. -/
theorem applyMultiSort_total_unknown_field_witness :
    (applyMultiSort
        [⟨"1", "Amy", "x", none, none, "active"⟩,
         ⟨"2", "Bob", "y", none, none, "active"⟩]
        ([] ++ ⟨"c1", "bogus", "desc"⟩ :: [])).Perm
      [⟨"1", "Amy", "x", none, none, "active"⟩,
       ⟨"2", "Bob", "y", none, none, "active"⟩] ∧
    compareVals
      (getVal ⟨"1", "Amy", "x", none, none, "active"⟩ "bogus")
      (getVal ⟨"2", "Bob", "y", none, none, "active"⟩ "bogus") = 0 ∧
    applyMultiSort
      [⟨"1", "Amy", "x", none, none, "active"⟩,
       ⟨"2", "Bob", "y", none, none, "active"⟩]
      ([] ++ ⟨"c1", "bogus", "desc"⟩ :: []) =
      applyMultiSort
        [⟨"1", "Amy", "x", none, none, "active"⟩,
         ⟨"2", "Bob", "y", none, none, "active"⟩]
        ([] ++ []) :=
  applyMultiSort_total_unknown_field
    [⟨"1", "Amy", "x", none, none, "active"⟩,
     ⟨"2", "Bob", "y", none, none, "active"⟩]
    [] [] "bogus" "c1" "desc"
    ⟨"1", "Amy", "x", none, none, "active"⟩
    ⟨"2", "Bob", "y", none, none, "active"⟩
    (by decide)

/-- A single ascending criterion compares by the raw per-field comparison. -/
theorem compareClients_singleton_asc (i f : String) (x y : Client) :
    compareClients [⟨i, f, "asc"⟩] x y =
      compareVals (getVal x f) (getVal y f) := by
  by_cases h : compareVals (getVal x f) (getVal y f) = 0
  · simp [compareClients, h]
  · simp [compareClients, h]

/-- A single descending criterion compares by the negated per-field
comparison (negating zero is still zero, so the tie-break is unaffected). -/
theorem compareClients_singleton_desc (i f : String) (x y : Client) :
    compareClients [⟨i, f, "desc"⟩] x y =
      -compareVals (getVal x f) (getVal y f) := by
  by_cases h : compareVals (getVal x f) (getVal y f) = 0
  · simp [compareClients, h]
  · simp [compareClients, h]

/-- C4 counterexample: the missing-timestamp sentinel is the epoch instant
`0`, not the earliest possible time. Against a pre-epoch timestamp (`-5`),
ascending order places the record with the absent `createdAt` after the
record with the present one, contradicting "absent is placed before every
present timestamp". -/
theorem missing_timestamp_after_preepoch :
    (⟨"a", "", "", none, none, ""⟩ : Client).createdAt = none ∧
    (⟨"b", "", "", some (-5), none, ""⟩ : Client).createdAt = some (-5) ∧
    applyMultiSort
      [⟨"a", "", "", none, none, ""⟩, ⟨"b", "", "", some (-5), none, ""⟩]
      [⟨"c1", "createdAt", "asc"⟩] =
      [⟨"b", "", "", some (-5), none, ""⟩, ⟨"a", "", "", none, none, ""⟩] := by
  refine ⟨rfl, rfl, ?_⟩
  simp [applyMultiSort, List.mergeSort, List.splitInTwo, List.merge,
    compareClients, compareVals, getVal]

/-- C4 amended: an absent timestamp compares as the epoch instant `0`, so
in ascending order every record with an absent timestamp is placed before
every record whose present timestamp is after the epoch, for every record
list (formally: in the output, whenever a record precedes one with an
absent timestamp, any timestamp it carries is at most the epoch — so no
post-epoch record ever precedes an absent one, while pre-epoch records
may). -/
theorem missing_timestamp_sorts_before_postepoch
    (R : List Client) (i f : String)
    (hf : f = "createdAt" ∨ f = "updatedAt") :
    (applyMultiSort R [⟨i, f, "asc"⟩]).Pairwise
      (fun x y => tsField f y = none → ∀ t : Int, tsField f x = some t → t ≤ 0) := by
  have hC : ([⟨i, f, "asc"⟩] : List SortCriterion) ≠ [] := by simp
  rw [applyMultiSort_eq_mergeSort R _ hC]
  have hget : ∀ c : Client, getVal c f = .num ((tsField f c).getD 0) := by
    intro c
    rcases hf with hf | hf <;> subst hf <;> simp [getVal, tsField]
  have hs := @List.sorted_mergeSort Client
    (fun x y => decide (compareClients [⟨i, f, "asc"⟩] x y ≤ 0))
    (leClients_trans _) (leClients_total _) R
  refine hs.imp ?_
  intro x y hle hynone t htx
  have hcmp : compareClients [⟨i, f, "asc"⟩] x y ≤ 0 := by simpa using hle
  rw [compareClients_singleton_asc, hget x, hget y, hynone, htx] at hcmp
  simp only [compareVals, Option.getD_none, Option.getD_some] at hcmp
  omega

/-- Witness for C4 (amended): a mixed list with a post-epoch, an absent,
and a pre-epoch `createdAt`, sorted ascending by `createdAt`. -/
theorem missing_timestamp_sorts_before_postepoch_witness :
    (applyMultiSort
        [⟨"1", "Amy", "x", some 7, none, "active"⟩,
         ⟨"2", "Bob", "y", none, none, "active"⟩,
         ⟨"3", "Cid", "z", some (-3), none, "active"⟩]
        [⟨"c1", "createdAt", "asc"⟩]).Pairwise
      (fun x y => tsField "createdAt" y = none →
        ∀ t : Int, tsField "createdAt" x = some t → t ≤ 0) :=
  missing_timestamp_sorts_before_postepoch
    [⟨"1", "Amy", "x", some 7, none, "active"⟩,
     ⟨"2", "Bob", "y", none, none, "active"⟩,
     ⟨"3", "Cid", "z", some (-3), none, "active"⟩]
    "c1" "createdAt" (Or.inl rfl)

/-- C5: direction inversion. For a field on which the records of `R1` are
pairwise distinct, the descending sort is exactly the reverse of the
ascending sort; and for records `a`, `b` of `R2` equal on the field,
their input order is kept in both the ascending and the descending output
(so with duplicates the descending output is not simply the reverse). -/
theorem applyMultiSort_direction_inversion
    (R1 R2 : List Client) (F i1 i2 : String) (a b : Client)
    (hdist : R1.Pairwise (fun x y => getVal x F ≠ getVal y F))
    (hab : [a, b].Sublist R2)
    (h0 : compareVals (getVal a F) (getVal b F) = 0) :
    applyMultiSort R1 [⟨i1, F, "desc"⟩] =
      (applyMultiSort R1 [⟨i2, F, "asc"⟩]).reverse ∧
    [a, b].Sublist (applyMultiSort R2 [⟨i1, F, "asc"⟩]) ∧
    [a, b].Sublist (applyMultiSort R2 [⟨i2, F, "desc"⟩]) := by
  have hCa : ∀ j : String, ([⟨j, F, "asc"⟩] : List SortCriterion) ≠ [] := by simp
  have hCd : ∀ j : String, ([⟨j, F, "desc"⟩] : List SortCriterion) ≠ [] := by simp
  refine ⟨?_, ?_, ?_⟩
  · rw [applyMultiSort_eq_mergeSort R1 _ (hCd i1),
      applyMultiSort_eq_mergeSort R1 _ (hCa i2)]
    set Od := R1.mergeSort
      (fun x y => decide (compareClients [⟨i1, F, "desc"⟩] x y ≤ 0)) with hOd
    set Oa := R1.mergeSort
      (fun x y => decide (compareClients [⟨i2, F, "asc"⟩] x y ≤ 0)) with hOa
    have hpermd : Od.Perm R1 := List.mergeSort_perm R1 _
    have hperma : Oa.Perm R1 := List.mergeSort_perm R1 _
    have hperm : Od.Perm Oa.reverse :=
      (hpermd.trans hperma.symm).trans Oa.reverse_perm.symm
    have hdistd : Od.Pairwise (fun x y => getVal x F ≠ getVal y F) :=
      (hpermd.pairwise_iff (fun h => Ne.symm h)).mpr hdist
    have hdista : Oa.Pairwise (fun x y => getVal x F ≠ getVal y F) :=
      (hperma.pairwise_iff (fun h => Ne.symm h)).mpr hdist
    have hsortd : Od.Pairwise
        (fun x y => 0 < compareVals (getVal x F) (getVal y F)) := by
      have hs := @List.sorted_mergeSort Client
        (fun x y => decide (compareClients [⟨i1, F, "desc"⟩] x y ≤ 0))
        (leClients_trans _) (leClients_total _) R1
      rw [← hOd] at hs
      have hcomb := hs.and hdistd
      refine hcomb.imp ?_
      intro x y hxy
      obtain ⟨h1, h2⟩ := hxy
      rw [compareClients_singleton_desc] at h1
      simp only [decide_eq_true_eq] at h1
      have hne : compareVals (getVal x F) (getVal y F) ≠ 0 :=
        fun hz => h2 (compareVals_getVal_eq F x y hz)
      omega
    have hsorta : Oa.reverse.Pairwise
        (fun x y => 0 < compareVals (getVal x F) (getVal y F)) := by
      have hs := @List.sorted_mergeSort Client
        (fun x y => decide (compareClients [⟨i2, F, "asc"⟩] x y ≤ 0))
        (leClients_trans _) (leClients_total _) R1
      rw [← hOa] at hs
      have hcomb := hs.and hdista
      rw [List.pairwise_reverse]
      refine hcomb.imp ?_
      intro x y hxy
      obtain ⟨h1, h2⟩ := hxy
      rw [compareClients_singleton_asc] at h1
      simp only [decide_eq_true_eq] at h1
      have hne : compareVals (getVal x F) (getVal y F) ≠ 0 :=
        fun hz => h2 (compareVals_getVal_eq F x y hz)
      have hswap := compareVals_swap (getVal x F) (getVal y F)
      omega
    haveI : IsAntisymm Client
        (fun x y => 0 < compareVals (getVal x F) (getVal y F)) := by
      constructor
      intro x y hx hy
      have hswap := compareVals_swap (getVal x F) (getVal y F)
      omega
    exact List.eq_of_perm_of_sorted hperm hsortd hsorta
  · rw [applyMultiSort_eq_mergeSort R2 _ (hCa i1)]
    refine List.pair_sublist_mergeSort (leClients_trans _) (leClients_total _) ?_ hab
    simp [compareClients_singleton_asc, h0]
  · rw [applyMultiSort_eq_mergeSort R2 _ (hCd i2)]
    refine List.pair_sublist_mergeSort (leClients_trans _) (leClients_total _) ?_ hab
    simp [compareClients_singleton_desc, h0]

/-- Witness for C5: distinct `createdAt` instants in the first list, a
duplicated instant in the second. -/
theorem applyMultiSort_direction_inversion_witness :
    applyMultiSort
        [⟨"1", "Amy", "x", some 3, none, "active"⟩,
         ⟨"2", "Bob", "y", some 1, none, "active"⟩]
        [⟨"d1", "createdAt", "desc"⟩] =
      (applyMultiSort
        [⟨"1", "Amy", "x", some 3, none, "active"⟩,
         ⟨"2", "Bob", "y", some 1, none, "active"⟩]
        [⟨"d2", "createdAt", "asc"⟩]).reverse ∧
    [(⟨"4", "Dee", "u", some 2, none, "active"⟩ : Client),
     ⟨"5", "Eve", "v", some 2, none, "active"⟩].Sublist
      (applyMultiSort
        [⟨"4", "Dee", "u", some 2, none, "active"⟩,
         ⟨"5", "Eve", "v", some 2, none, "active"⟩,
         ⟨"6", "Fay", "w", some 9, none, "active"⟩]
        [⟨"d1", "createdAt", "asc"⟩]) ∧
    [(⟨"4", "Dee", "u", some 2, none, "active"⟩ : Client),
     ⟨"5", "Eve", "v", some 2, none, "active"⟩].Sublist
      (applyMultiSort
        [⟨"4", "Dee", "u", some 2, none, "active"⟩,
         ⟨"5", "Eve", "v", some 2, none, "active"⟩,
         ⟨"6", "Fay", "w", some 9, none, "active"⟩]
        [⟨"d2", "createdAt", "desc"⟩]) :=
  applyMultiSort_direction_inversion
    [⟨"1", "Amy", "x", some 3, none, "active"⟩,
     ⟨"2", "Bob", "y", some 1, none, "active"⟩]
    [⟨"4", "Dee", "u", some 2, none, "active"⟩,
     ⟨"5", "Eve", "v", some 2, none, "active"⟩,
     ⟨"6", "Fay", "w", some 9, none, "active"⟩]
    "createdAt" "d1" "d2"
    ⟨"4", "Dee", "u", some 2, none, "active"⟩
    ⟨"5", "Eve", "v", some 2, none, "active"⟩
    (by decide) (by decide) (by decide)

/-- A successful add appends a field not yet present, preserving pairwise
distinctness of the fields. -/
theorem handleAddField_nodup (f : String) (n : Nat) (s : List SortCriterion)
    (h : (s.map (fun c => c.field)).Nodup) :
    ((handleAddField f n s).map (fun c => c.field)).Nodup := by
  unfold handleAddField
  split
  · rename_i hguard
    have hmem : f ∉ s.map (fun c => c.field) := by
      intro hmem
      rw [List.mem_map] at hmem
      obtain ⟨c, hc, hcf⟩ := hmem
      exact hguard.2 (List.any_eq_true.mpr ⟨c, hc, by simp [hcf]⟩)
    rw [List.map_append]
    simp only [List.map_cons, List.map_nil]
    exact h.append (List.nodup_singleton f)
      (List.disjoint_singleton.mpr hmem)
  · exact h

/-- Any sequence of adds starting from a state with pairwise-distinct fields
keeps the fields pairwise distinct. -/
theorem handleAddField_foldl_nodup (ops : List (String × Nat)) :
    ∀ (s : List SortCriterion), (s.map (fun c => c.field)).Nodup →
      ((ops.foldl (fun acc p => handleAddField p.1 p.2 acc) s).map
        (fun c => c.field)).Nodup := by
  induction ops with
  | nil =>
    intro s h
    simpa using h
  | cons p rest ih =>
    intro s h
    exact ih _ (handleAddField_nodup p.1 p.2 s h)

/-- C7: starting from any state in which no two criteria share a field
(`s`, the empty initial state included), any sequence of adds keeps the
fields pairwise distinct; an add for a field already present in a state
(`s1`) returns that state unchanged; and a successful add on a state not
holding the field (`s2`) appends exactly one criterion for the field with
direction `"asc"` and the freshly generated id, leaving the existing
criteria and their order unchanged. -/
theorem handleAddField_uniqueness
    (s s1 s2 : List SortCriterion) (ops : List (String × Nat))
    (f1 f2 : String) (n1 n2 : Nat)
    (hnd : (s.map (fun c => c.field)).Nodup)
    (hpresent : s1.any (fun c => c.field = f1) = true)
    (hne : f2 ≠ "")
    (hfresh : ¬ s2.any (fun c => c.field = f2) = true) :
    ((ops.foldl (fun acc p => handleAddField p.1 p.2 acc) s).map
        (fun c => c.field)).Nodup ∧
    handleAddField f1 n1 s1 = s1 ∧
    handleAddField f2 n2 s2 =
      s2 ++ [⟨"sort-" ++ toString n2 ++ "-" ++ f2, f2, "asc"⟩] := by
  refine ⟨handleAddField_foldl_nodup ops s hnd, ?_, ?_⟩
  · unfold handleAddField
    rw [if_neg]
    rintro ⟨-, hno⟩
    exact hno hpresent
  · unfold handleAddField
    rw [if_pos ⟨hne, hfresh⟩]

/-- Witness for C7: adds of `email` then `name` from the empty initial
state, a no-op add of the present `name`, and a successful add of `email`
next to it. -/
theorem handleAddField_uniqueness_witness :
    (([("email", (5 : Nat)), ("name", 6)].foldl
        (fun acc p => handleAddField p.1 p.2 acc)
        []).map (fun c => c.field)).Nodup ∧
    handleAddField "name" 1 [⟨"a", "name", "asc"⟩] = [⟨"a", "name", "asc"⟩] ∧
    handleAddField "email" 2 [⟨"a", "name", "asc"⟩] =
      [⟨"a", "name", "asc"⟩] ++ [⟨"sort-" ++ toString 2 ++ "-" ++ "email", "email", "asc"⟩] :=
  handleAddField_uniqueness [] [⟨"a", "name", "asc"⟩] [⟨"a", "name", "asc"⟩]
    [("email", 5), ("name", 6)]
    "name" "email" 1 2 (by decide) (by decide) (by decide) (by decide)

/-- C8: when the dragged id occurs at index `i` and the drop target id at
index `j` (distinct ids), `handleDragEnd` permutes the criteria (same
multiset), equals erase-at-`i` followed by insert-at-`j`, puts the dragged
criterion at index `j`, and preserves the relative order of all other
criteria (removing the moved element from the result recovers the others in
input order). When the dragged id matches no criterion of a state (`s2`),
when there is no drop target, or when the target is the dragged element
itself — the latter two for every state (`s3`) — the state is returned
unchanged. -/
theorem handleDragEnd_reorder
    (s s2 s3 : List SortCriterion) (aid oid a2 a3 : String) (o2 : Option String)
    (i j : Nat) (m : SortCriterion)
    (ha : s.findIdx? (fun c => c.id = aid) = some i)
    (hb : s.findIdx? (fun c => c.id = oid) = some j)
    (hm : s[i]? = some m)
    (hne : aid ≠ oid)
    (h2 : s2.findIdx? (fun c => c.id = a2) = none) :
    (handleDragEnd aid (some oid) s).Perm s ∧
    handleDragEnd aid (some oid) s = (s.eraseIdx i).insertIdx j m ∧
    (handleDragEnd aid (some oid) s)[j]? = some m ∧
    (handleDragEnd aid (some oid) s).eraseIdx j = s.eraseIdx i ∧
    handleDragEnd a2 o2 s2 = s2 ∧
    handleDragEnd a3 none s3 = s3 ∧
    handleDragEnd a3 (some a3) s3 = s3 := by
  have hi : i < s.length := (List.getElem?_eq_some_iff.mp hm).1
  obtain ⟨hj, -, -⟩ := List.findIdx?_eq_some_iff_getElem.mp hb
  have heq : handleDragEnd aid (some oid) s = (s.eraseIdx i).insertIdx j m := by
    unfold handleDragEnd
    rw [if_neg (by simpa using hne)]
    simp only [Option.some_bind]
    rw [ha, hb]
    simp [hm]
  have hjle : j ≤ (s.eraseIdx i).length := by
    rw [List.length_eraseIdx_of_lt hi]
    omega
  refine ⟨handleDragEnd_perm aid (some oid) s, heq, ?_, ?_, ?_, ?_, ?_⟩
  · rw [heq]
    rw [List.getElem?_eq_getElem (by rw [List.length_insertIdx j _ hjle]; omega)]
    rw [List.getElem_insertIdx_self _ _ _ hjle]
  · rw [heq, List.eraseIdx_insertIdx]
  · unfold handleDragEnd
    by_cases hcase : some a2 = o2
    · rw [if_pos hcase]
    · rw [if_neg hcase, h2]
  · unfold handleDragEnd
    rw [if_neg (by simp)]
    cases hfa : s3.findIdx? (fun c => c.id = a3) <;> simp [Option.bind]
  · unfold handleDragEnd
    rw [if_pos rfl]

/-- Witness for C8: dragging the first criterion onto the third in a
three-element state, plus the three no-op shapes. -/
theorem handleDragEnd_reorder_witness :
    (handleDragEnd "a" (some "c")
        [⟨"a", "name", "asc"⟩, ⟨"b", "email", "asc"⟩, ⟨"c", "status", "asc"⟩]).Perm
      [⟨"a", "name", "asc"⟩, ⟨"b", "email", "asc"⟩, ⟨"c", "status", "asc"⟩] ∧
    handleDragEnd "a" (some "c")
        [⟨"a", "name", "asc"⟩, ⟨"b", "email", "asc"⟩, ⟨"c", "status", "asc"⟩] =
      (([⟨"a", "name", "asc"⟩, ⟨"b", "email", "asc"⟩,
         ⟨"c", "status", "asc"⟩] : List SortCriterion).eraseIdx 0).insertIdx 2
        ⟨"a", "name", "asc"⟩ ∧
    (handleDragEnd "a" (some "c")
        [⟨"a", "name", "asc"⟩, ⟨"b", "email", "asc"⟩, ⟨"c", "status", "asc"⟩])[2]? =
      some ⟨"a", "name", "asc"⟩ ∧
    (handleDragEnd "a" (some "c")
        [⟨"a", "name", "asc"⟩, ⟨"b", "email", "asc"⟩,
         ⟨"c", "status", "asc"⟩]).eraseIdx 2 =
      ([⟨"a", "name", "asc"⟩, ⟨"b", "email", "asc"⟩,
        ⟨"c", "status", "asc"⟩] : List SortCriterion).eraseIdx 0 ∧
    handleDragEnd "zz" (some "a") [⟨"b", "email", "asc"⟩] = [⟨"b", "email", "asc"⟩] ∧
    handleDragEnd "a" none [⟨"a", "name", "asc"⟩] = [⟨"a", "name", "asc"⟩] ∧
    handleDragEnd "a" (some "a") [⟨"a", "name", "asc"⟩] = [⟨"a", "name", "asc"⟩] :=
  handleDragEnd_reorder
    [⟨"a", "name", "asc"⟩, ⟨"b", "email", "asc"⟩, ⟨"c", "status", "asc"⟩]
    [⟨"b", "email", "asc"⟩] [⟨"a", "name", "asc"⟩]
    "a" "c" "zz" "a" (some "a") 0 2 ⟨"a", "name", "asc"⟩
    (by decide) (by decide) (by decide) (by decide) (by decide)

/-- C3 counterexample: the load validation accepts an element whose `field`
(`"bogus"`) appears in no descriptor and whose `direction` (`"sideways"`) is
neither ascending nor descending — the loaded value is kept, not discarded,
so the resulting criteria state is not the empty sequence. -/
theorem loadCriteria_accepts_unvalidated :
    loadCriteria (some (.arr [⟨"a", "bogus", "sideways"⟩])) =
      [⟨"a", "bogus", "sideways"⟩] ∧
    loadCriteria (some (.arr [⟨"a", "bogus", "sideways"⟩])) ≠ [] := by
  constructor
  · decide
  · decide

/-- C3 amended: the load accepts a persisted value exactly when it is a list
whose every element has truthy (non-empty) `id`, `field`, and `direction`;
membership of `field` in the descriptor table and `direction` ∈
{asc, desc} are not checked. Any violation — parse failure, non-list, or
a falsy member — discards the entire value and leaves the empty criteria
state; no load is fatal (the load function is total). -/
theorem loadCriteria_truthiness_validation
    (okItems badItems : List SortCriterion)
    (hok : okItems.all
      (fun c => c.id ≠ "" ∧ c.field ≠ "" ∧ c.direction ≠ "") = true)
    (hbad : ¬ badItems.all
      (fun c => c.id ≠ "" ∧ c.field ≠ "" ∧ c.direction ≠ "") = true) :
    loadCriteria none = [] ∧
    loadCriteria (some .malformed) = [] ∧
    loadCriteria (some .nonArray) = [] ∧
    loadCriteria (some (.arr okItems)) = okItems ∧
    loadCriteria (some (.arr badItems)) = [] := by
  refine ⟨rfl, rfl, rfl, ?_, ?_⟩
  · simp only [loadCriteria]
    rw [if_pos hok]
  · simp only [loadCriteria]
    rw [if_neg hbad]

/-- Witness for C3 (amended): a valid one-element value and a value with an
empty id. -/
theorem loadCriteria_truthiness_validation_witness :
    loadCriteria none = [] ∧
    loadCriteria (some .malformed) = [] ∧
    loadCriteria (some .nonArray) = [] ∧
    loadCriteria (some (.arr [⟨"a", "name", "asc"⟩])) = [⟨"a", "name", "asc"⟩] ∧
    loadCriteria (some (.arr [⟨"", "name", "asc"⟩])) = [] :=
  loadCriteria_truthiness_validation [⟨"a", "name", "asc"⟩] [⟨"", "name", "asc"⟩]
    (by decide) (by decide)

/-- The generated criterion id `` `sort-${now}-${field}` `` is never the
empty string. -/
theorem sortId_ne_empty (n : Nat) (f : String) :
    ("sort-" ++ toString n ++ "-" ++ f) ≠ "" := by
  intro h
  have hlen := congrArg String.length h
  rw [String.length_append, String.length_append, String.length_append] at hlen
  have h5 : ("sort-" : String).length = 5 := rfl
  have h1 : ("-" : String).length = 1 := rfl
  have h0 : ("" : String).length = 0 := rfl
  omega

/-- Each store operation keeps every criterion's id, field, and direction
non-empty. -/
theorem applyOp_preserves_nonempty (s : List SortCriterion) (op : Op)
    (h : ∀ c ∈ s, c.id ≠ "" ∧ c.field ≠ "" ∧ c.direction ≠ "") :
    ∀ c ∈ applyOp s op, c.id ≠ "" ∧ c.field ≠ "" ∧ c.direction ≠ "" := by
  cases op with
  | add f n =>
    intro c hc
    simp only [applyOp] at hc
    unfold handleAddField at hc
    split at hc
    · rename_i hguard
      rw [List.mem_append] at hc
      rcases hc with hc | hc
      · exact h c hc
      · simp only [List.mem_singleton] at hc
        subst hc
        exact ⟨sortId_ne_empty n f, hguard.1, by simp⟩
    · exact h c hc
  | remove i =>
    intro c hc
    simp only [applyOp, handleRemoveCriterion] at hc
    exact h c (List.mem_of_mem_filter hc)
  | toggle i =>
    intro c hc
    simp only [applyOp] at hc
    unfold handleToggleDirection at hc
    rw [List.mem_map] at hc
    obtain ⟨d, hd, hdc⟩ := hc
    obtain ⟨hd1, hd2, hd3⟩ := h d hd
    by_cases hid : d.id = i
    · rw [if_pos hid] at hdc
      subst hdc
      refine ⟨hd1, hd2, ?_⟩
      split <;> simp
    · rw [if_neg hid] at hdc
      subst hdc
      exact ⟨hd1, hd2, hd3⟩
  | drag a o =>
    intro c hc
    exact h c ((handleDragEnd_perm a o s).mem_iff.mp hc)

/-- Every criteria state reachable by user operations from the empty state
has only criteria with non-empty id, field, and direction. -/
theorem runOps_nonempty (ops : List Op) :
    ∀ c ∈ runOps ops, c.id ≠ "" ∧ c.field ≠ "" ∧ c.direction ≠ "" := by
  unfold runOps
  suffices h : ∀ (s : List SortCriterion),
      (∀ c ∈ s, c.id ≠ "" ∧ c.field ≠ "" ∧ c.direction ≠ "") →
      ∀ c ∈ ops.foldl applyOp s, c.id ≠ "" ∧ c.field ≠ "" ∧ c.direction ≠ "" by
    exact h [] (by simp)
  induction ops with
  | nil =>
    intro s hs
    simpa using hs
  | cons op rest ih =>
    intro s hs
    exact ih _ (applyOp_preserves_nonempty s op hs)

/-- C9: serializing the criteria state reached by any sequence of the public
operations (add, remove, toggle direction, drag reorder) from the empty
state and loading it back — including the load-time validation — returns a
state structurally equal to the original. -/
theorem criteria_round_trip (ops : List Op) :
    loadCriteria (some (serializeCriteria (runOps ops))) = runOps ops := by
  have hne := runOps_nonempty ops
  simp only [serializeCriteria, loadCriteria]
  rw [if_pos]
  rw [List.all_eq_true]
  intro c hc
  simpa using hne c hc

end ClientTable
